import Mathlib

set_option maxRecDepth 40000

/-!
Verification of the leaderboard / auction-history core of the skyblock-api
repository, as a shallow embedding in Lean 4.

The definitions below are translated from the TypeScript source:
- `src/database.ts`-style leaderboard module (matcher tables, reversed
  leaderboards, leaderboard requirement / applicability / member commit),
- `src/hypixel.ts` (fetchElection single-flight cache, the
  recently-ended-auctions sync loop),
- `src/cleaners/skyblock/stats.ts` (stat categorization and units).

JavaScript numbers used in comparisons are modeled as `Int`; JavaScript
`Map`s and objects are modeled as association lists; the mutable module
state is threaded explicitly; the stable `Array.prototype.sort` is modeled
by `List.insertionSort` (the unique stable sort for a total preorder).
-/

namespace Skyblock

/-! ## String matching helpers (JS `startsWith` / `endsWith` on names) -/

/-- JS `name.startsWith(m)`: `m` is a prefix of `name` (on character lists). -/
def strStartsWith (m name : String) : Bool :=
  m.data.isPrefixOf name.data

/-- JS `name.endsWith(m)`: `m` is a suffix of `name` (on character lists). -/
def strEndsWith (m name : String) : Bool :=
  m.data.isSuffixOf name.data

/-! ## The shared matcher algorithm

Translated from `isLeaderboardReversed` / `getLeaderboardUnit` /
`getStatUnit` / `categorizeStat`; all four use the same test:

```js
let trailingEnd = match[0] === '_'
let trailingStart = match.substr(-1) === '_'
if ((trailingStart && name.startsWith(match))
  || (trailingEnd && name.endsWith(match))
  || (name == match))
```
-/

/-- `match[0] === '_'` in JS (an empty matcher gives `undefined ≠ '_'`). -/
def firstUnderscore (m : String) : Bool :=
  m.data.head? = some '_'

/-- `match.substr(-1) === '_'` / `match.slice(-1) === '_'` in JS. -/
def lastUnderscore (m : String) : Bool :=
  m.data.getLast? = some '_'

/-- One matcher applied to one name, exactly the source's condition. -/
def matcherMatches (m name : String) : Bool :=
  let trailingEnd := firstUnderscore m
  let trailingStart := lastUnderscore m
  (trailingStart && strStartsWith m name)
    || (trailingEnd && strEndsWith m name)
    || name == m

/-- `reversedLeaderboards` table from the leaderboard module. -/
def reversedLeaderboards : List String :=
  ["first_join", "_best_time", "_best_time_2"]

/-- `isLeaderboardReversed` from the leaderboard module. -/
def isLeaderboardReversed (name : String) : Bool :=
  reversedLeaderboards.any fun m => matcherMatches m name

/-- `leaderboardUnits` table from the leaderboard module. -/
def leaderboardUnits : List (String × List String) :=
  [("time", ["_best_time", "_best_time_2"]),
   ("date", ["first_join"]),
   ("coins", ["purse"])]

/-- `getLeaderboardUnit` from the leaderboard module (JS returns
`undefined` when nothing matches, modeled as `none`). -/
def getLeaderboardUnit (name : String) : Option String :=
  leaderboardUnits.foldr
    (fun u acc => if u.2.any (fun m => matcherMatches m name) then some u.1 else acc)
    none

/-- `statUnits` table from `cleaners/skyblock/stats.ts`. -/
def statUnits : List (String × List String) :=
  [("time", ["_best_time", "_best_time_2", "fastest_coop_join", "slowest_coop_join"]),
   ("date", ["first_join", "last_save"]),
   ("coins", ["purse"]),
   ("leaderboards", ["leaderboards_count", "top_1_leaderboards_count"])]

/-- `getStatUnit` from `cleaners/skyblock/stats.ts`. -/
def getStatUnit (name : String) : Option String :=
  statUnits.foldr
    (fun u acc => if u.2.any (fun m => matcherMatches m name) then some u.1 else acc)
    none

/-- `statCategories` table from `cleaners/skyblock/stats.ts`
(the trailing `misc: null` entry is the fallback in `categorizeStat`). -/
def statCategories : List (String × List String) :=
  [("deaths", ["deaths_", "deaths"]),
   ("kills", ["kills_", "kills"]),
   ("fishing", ["items_fished_", "items_fished", "shredder_"]),
   ("auctions", ["auctions_"]),
   ("races", ["_best_time", "_best_time_2"]),
   ("mythos", ["mythos_burrows_", "mythos_kills"]),
   ("farming_contests", ["farming_contests_"]),
   ("collection", ["collection_"]),
   ("skills", ["skill_"]),
   ("slayer", ["slayer_"]),
   ("harp", ["harp_"])]

/-- Result type of `categorizeStat`. -/
structure StatCategory where
  category : Option String
  name : Option String
  deriving DecidableEq, Repr

/-- Inner matcher loop of `categorizeStat`: first matcher in the category
list that fires, with the categorized display name computed by slicing. -/
def categorizeStatMatch (statNameRaw : String) (cat : String) :
    List String → Option StatCategory
  | [] => none
  | m :: rest =>
    let trailingEnd := firstUnderscore m
    let trailingStart := lastUnderscore m
    if trailingStart && strStartsWith m statNameRaw then
      some ⟨some cat, some (String.mk (statNameRaw.data.drop m.data.length))⟩
    else if trailingEnd && strEndsWith m statNameRaw then
      some ⟨some cat, some (String.mk (statNameRaw.data.take (statNameRaw.data.length - m.data.length)))⟩
    else if statNameRaw == m then
      some ⟨some cat, none⟩
    else
      categorizeStatMatch statNameRaw cat rest

/-- `categorizeStat` from `cleaners/skyblock/stats.ts`: scan the category
table in order; the `misc` entry (null matcher list) matches everything. -/
def categorizeStat (statNameRaw : String) : StatCategory :=
  statCategories.foldr
    (fun c acc =>
      match categorizeStatMatch statNameRaw c.1 c.2 with
      | some r => r
      | none => acc)
    ⟨some "misc", some statNameRaw⟩

/-! ## Auction history sync (`periodicallyFetchRecentlyEndedAuctions`) -/

/-- `SimpleAuctionSchema` from `database.ts` as stored per item. -/
structure SimpleAuction where
  s : Bool
  coins : Int
  id : String
  ts : Int
  bin : Bool
  deriving DecidableEq, Repr

/-- One ended auction from the cleaned upstream snapshot. -/
structure EndedAuction where
  id : String
  itemId : String
  coins : Int
  timestamp : Int
  bin : Bool
  deriving DecidableEq, Repr

/-- The merge step of the sync loop for one item's working history:
skip if the auction id is already present; otherwise push and, when the
length exceeds 100, keep only the last 100 (`auctions.slice(-100)`). -/
def mergeAuction (auctions : List SimpleAuction) (a : SimpleAuction) : List SimpleAuction :=
  if auctions.any fun x => x.id == a.id then auctions
  else
    let l := auctions ++ [a]
    if 100 < l.length then l.drop (l.length - 100) else l

/-- 150 distinct sequential auctions for one item, used to check the cap. -/
def auctions150 : List SimpleAuction :=
  (List.range 150).map fun i => ⟨true, Int.ofNat i, Nat.repr i, Int.ofNat i, false⟩

/-- One step of collecting `newAuctionUuids`: skip ids already seen in
`previousAuctionIds` (`continue`), and `Set.add` the rest (first
occurrence kept, duplicates dropped). -/
def addNewAuctionId (previousAuctionIds : List String)
    (acc : List String) (a : EndedAuction) : List String :=
  if a.id ∈ previousAuctionIds then acc
  else if a.id ∈ acc then acc else acc ++ [a.id]

/-- `newAuctionUuids` of one sync iteration: ids of snapshot auctions not
seen in `previousAuctionIds`. -/
def newAuctionUuids (previousAuctionIds : List String)
    (auctions : List EndedAuction) : List String :=
  auctions.foldl (addNewAuctionId previousAuctionIds) []

/-- Line `previousAuctionIds = newAuctionUuids` at the end of an iteration:
the previous-ids set used by the next iteration's diff. -/
def nextPreviousAuctionIds (previousAuctionIds : List String)
    (auctions : List EndedAuction) : List String :=
  newAuctionUuids previousAuctionIds auctions

/-- `refetchIn` computation of the sync loop:
`60 * 1000 - endedAgo + 10000` with `endedAgo = Date.now() - lastUpdated`. -/
def refetchIn (now lastUpdated : Int) : Int :=
  60 * 1000 - (now - lastUpdated) + 10000

/-- Models the runtime timer the loop waits on: `setTimeout` never waits a
negative duration, so a non-positive requested delay fires immediately. -/
def timerWait (ms : Int) : Int :=
  max 0 ms

/-- The delay formula exactly as the specification words it:
`max(0, 60s − (now − snapshot.lastUpdated) + 10s)`. -/
def specRetryDelay (now lastUpdated : Int) : Int :=
  max 0 (60 * 1000 - (now - lastUpdated) + 10000)

/-! ## `fetchElection` single-flight cache, as an interleaving model

The module state of `hypixel.ts` (`isFetchingElection`,
`cachedElectionData`, `nextElectionUpdate`) together with the control
point of each concurrent caller of `fetchElection`.  Cooperative
single-threaded concurrency: a scheduler event either runs one caller's
next synchronous segment or resolves/rejects an in-flight upstream
request.  Election data is modeled by its `lastUpdated` field. -/

inductive ElectionPC where
  /-- caller has been invoked but not yet run -/
  | start
  /-- caller is inside the 100 ms poll loop -/
  | waiting
  /-- caller has started `sendCleanApiRequest` and is awaiting it -/
  | awaitingFetch
  /-- caller returned value `v` -/
  | done (v : Int)
  /-- the awaited request rejected and the exception propagated out -/
  | failed
  deriving DecidableEq, Repr

structure ElectionState where
  isFetchingElection : Bool
  cachedElectionData : Option Int
  nextElectionUpdate : Int
  /-- current wall-clock, fixed over the scenario -/
  now : Int
  /-- number of upstream election requests started -/
  fetchCount : Nat
  pcs : List ElectionPC
  deriving DecidableEq, Repr

inductive ElectionEvent where
  /-- the scheduler runs caller `i` up to its next suspension point -/
  | run (i : Nat)
  /-- caller `i`'s upstream request resolves with data `lastUpdated` -/
  | fetchOk (i : Nat) (lastUpdated : Int)
  /-- caller `i`'s upstream request rejects -/
  | fetchErr (i : Nat)
  deriving DecidableEq, Repr

/-- One event of the interleaved execution of `fetchElection` callers,
following the source line by line:
* fresh cache → return it;
* `isFetchingElection && !cachedElectionData` → enter the poll loop;
* otherwise set `isFetchingElection = true` and start the request;
* a poll-loop caller whose poll sees `cachedElectionData` resumes after
  the `await` and *continues into the fetch section itself*;
* a resolving request runs the tail `isFetchingElection = false;
  cachedElectionData = ...; nextElectionUpdate = ...; return election`;
* a rejecting request propagates: none of that tail runs. -/
def electionStep (st : ElectionState) : ElectionEvent → ElectionState
  | .run i =>
    match st.pcs.getD i (.done 0) with
    | .start =>
      if st.cachedElectionData.isSome && decide (st.nextElectionUpdate > st.now) then
        { st with pcs := st.pcs.set i (.done (st.cachedElectionData.getD 0)) }
      else if st.isFetchingElection && st.cachedElectionData.isNone then
        { st with pcs := st.pcs.set i .waiting }
      else
        { st with isFetchingElection := true,
                  fetchCount := st.fetchCount + 1,
                  pcs := st.pcs.set i .awaitingFetch }
    | .waiting =>
      match st.cachedElectionData with
      | some _ =>
        { st with isFetchingElection := true,
                  fetchCount := st.fetchCount + 1,
                  pcs := st.pcs.set i .awaitingFetch }
      | none => st
    | _ => st
  | .fetchOk i lastUpdated =>
    match st.pcs.getD i (.done 0) with
    | .awaitingFetch =>
      { st with isFetchingElection := false,
                cachedElectionData := some lastUpdated,
                nextElectionUpdate := (lastUpdated + 10 * 60) * 1000,
                pcs := st.pcs.set i (.done lastUpdated) }
    | _ => st
  | .fetchErr i =>
    match st.pcs.getD i (.done 0) with
    | .awaitingFetch => { st with pcs := st.pcs.set i .failed }
    | _ => st

/-- Run a schedule of events. -/
def electionRun (st : ElectionState) (evs : List ElectionEvent) : ElectionState :=
  evs.foldl electionStep st

/-- Cold start (`cachedElectionData = null`, `nextElectionUpdate = new
Date(0)`) with two concurrent callers. -/
def electionCold2 : ElectionState :=
  { isFetchingElection := false
    cachedElectionData := none
    nextElectionUpdate := 0
    now := 1000000000
    fetchCount := 0
    pcs := [.start, .start] }

/-! ## Leaderboard store

State of the leaderboard module: the `member-leaderboards` collection and
the `cachedRawLeaderboards` map.  The JS `Map` is modeled as a function
to `Option`; documents' `last_updated` timestamps carry no logic and are
omitted. -/

/-- One document of the `member-leaderboards` collection
(keyed by `(uuid, profile)`). -/
structure MemberDoc where
  uuid : String
  profile : String
  stats : List (String × Int)
  deriving DecidableEq, Repr

/-- `DatabaseLeaderboardItem`: one entry of a raw leaderboard. -/
structure DbItem where
  uuid : String
  stats : List (String × Int)
  deriving DecidableEq, Repr

/-- `item.stats[name]` for an item known to carry the attribute
(absent attributes default to 0; every item in a served view has the
attribute, by construction). -/
def getStat (it : DbItem) (name : String) : Int :=
  (it.stats.lookup name).getD 0

/-- Sort key in which the JS comparator
`(a, b) => rev ? a.stats[n] - b.stats[n] : b.stats[n] - a.stats[n]`
sorts ascending. -/
def statKey (rev : Bool) (name : String) (it : DbItem) : Int :=
  if rev then getStat it name else - getStat it name

/-- The comparator's total preorder. -/
def keyLe {α : Type} (k : α → Int) (a b : α) : Prop :=
  k a ≤ k b

instance {α : Type} (k : α → Int) : DecidableRel (keyLe k) :=
  fun _ _ => Int.decLe _ _

/-- JS `Array.prototype.sort` with an integer-key comparator: the stable
sort, i.e. `List.insertionSort` of the comparator's preorder. -/
def jsSort {α : Type} (k : α → Int) (l : List α) : List α :=
  l.insertionSort (keyLe k)

/-- The `leaderboardMax` constant. -/
def leaderboardMax : Nat := 100

/-- Persistent-store top-K query of `fetchMemberLeaderboardRaw`'s
cache-miss path: documents where `stats.<name>` exists, sorted by that
attribute in the leaderboard's direction, limited to `leaderboardMax`
(the store contract: `find`, `sort`, `limit`). -/
def dbQuery (store : List MemberDoc) (name : String) : List DbItem :=
  (jsSort (statKey (isLeaderboardReversed name) name)
      ((store.filter fun d => (d.stats.lookup name).isSome).map
        fun d => ⟨d.uuid, d.stats⟩)).take leaderboardMax

/-- State of the leaderboard module. -/
structure LbState where
  store : List MemberDoc
  cache : String → Option (List DbItem)

/-- `cachedRawLeaderboards.set(name, v)`. -/
def setCache (c : String → Option (List DbItem)) (name : String)
    (v : List DbItem) : String → Option (List DbItem) :=
  fun m => if m = name then some v else c m

/-- `fetchMemberLeaderboardRaw`: the cached mirror if present, otherwise
the persistent-store query, which is then cached. -/
def fetchMemberLeaderboardRaw (st : LbState) (name : String) :
    List DbItem × LbState :=
  match st.cache name with
  | some lb => (lb, st)
  | none =>
    let lb := dbQuery st.store name
    (lb, { st with cache := setCache st.cache name lb })

/-- `getMemberLeaderboardRequirement`: the 100th entry's value when the
leaderboard is full, otherwise `null`. -/
def getMemberLeaderboardRequirement (st : LbState) (name : String) :
    Option Int × LbState :=
  let r := fetchMemberLeaderboardRaw st name
  if leaderboardMax ≤ r.1.length then
    (some (getStat (r.1.getD (leaderboardMax - 1) ⟨"", []⟩) name), r.2)
  else (none, r.2)

/-- JS truthiness of `requirement : number | null`. -/
def requirementTruthy (req : Option Int) : Bool :=
  match req with
  | none => false
  | some v => v != 0

/-- The include-condition of `getApplicableAttributes` with JavaScript's
operator precedence:
`(!requirement || leaderboardReversed) ? value < requirement : value > requirement`,
where a `null` requirement coerces to `0` inside the comparison. -/
def applicableCond (req : Option Int) (rev : Bool) (v : Int) : Bool :=
  if !requirementTruthy req || rev then decide (v < req.getD 0)
  else decide (v > req.getD 0)

/-- The inclusion rule as the specification words it: include iff the
leaderboard is not yet full (`null` requirement), or the value strictly
beats the requirement in the leaderboard's ranking direction. -/
def specApplicableCond (req : Option Int) (rev : Bool) (v : Int) : Bool :=
  match req with
  | none => true
  | some r => if rev then decide (v < r) else decide (v > r)

/-- `getApplicableAttributes`: keep the attributes whose value passes the
include-condition against the leaderboard's requirement. -/
def getApplicableAttributes (st : LbState) (attrs : List (String × Int)) :
    List (String × Int) × LbState :=
  attrs.foldl
    (fun acc p =>
      let r := getMemberLeaderboardRequirement acc.2 p.1
      if applicableCond r.1 (isLeaderboardReversed p.1) p.2 then
        (acc.1 ++ [p], r.2)
      else (acc.1, r.2))
    ([], st)

/-- In-memory mirror patch of `updateDatabaseMember` for one attribute:
drop the member's entries, append the new entry, stable-sort by the
attribute in the leaderboard's direction, truncate to 100. -/
def patchLeaderboard (existingRaw : List DbItem) (memberUuid : String)
    (leaderboardAttributes : List (String × Int)) (attributeName : String) :
    List DbItem :=
  (jsSort (statKey (isLeaderboardReversed attributeName) attributeName)
      ((existingRaw.filter fun v => v.uuid != memberUuid)
        ++ [⟨memberUuid, leaderboardAttributes⟩])).take 100

/-- `updateOne({uuid, profile}, { $set: { stats } }, { upsert: true })`. -/
def upsertDoc (store : List MemberDoc) (u p : String)
    (attrs : List (String × Int)) : List MemberDoc :=
  if store.any fun d => d.uuid == u && d.profile == p then
    store.map fun d =>
      if d.uuid == u && d.profile == p then { d with stats := attrs } else d
  else store ++ [⟨u, p, attrs⟩]

/-- One mirror patch of `updateDatabaseMember`'s commit: read the raw
leaderboard of one applicable attribute and store the patched list back
into the cache. -/
def commitStep (memberUuid : String)
    (leaderboardAttributes : List (String × Int)) (s : LbState)
    (p : String × Int) : LbState :=
  let r := fetchMemberLeaderboardRaw s p.1
  { r.2 with
    cache := setCache r.2.cache p.1
      (patchLeaderboard r.1 memberUuid leaderboardAttributes p.1) }

/-- Commit step of `updateDatabaseMember`: the persistent upsert followed
by the mirror patch of every leaderboard named in the applicable
attributes. -/
def commitMember (st : LbState) (memberUuid profileUuid : String)
    (leaderboardAttributes : List (String × Int)) : LbState :=
  let st1 : LbState :=
    { st with
      store := upsertDoc st.store memberUuid profileUuid leaderboardAttributes }
  leaderboardAttributes.foldl (commitStep memberUuid leaderboardAttributes) st1

/-! ## Debounce gate and `updateDatabaseMember` control flow -/

/-- Full api state: the `recentlyUpdated` marker cache (key ↦ time the
marker was set) plus the leaderboard module state. -/
structure ApiState where
  markers : List (String × Int)
  lb : LbState

/-- `recentlyUpdated.get(key)` at time `now`: present iff a marker was
set within the last 3 minutes (`stdTTL: 60 * 3` seconds). -/
def markerActive (markers : List (String × Int)) (key : String)
    (now : Int) : Bool :=
  match markers.lookup key with
  | some t => decide (now < t + 180 * 1000)
  | none => false

inductive UpdateOutcome where
  | skipped
  | failed
  | committed
  deriving DecidableEq, Repr

/-- `updateDatabaseMember` control flow: return early when the member was
updated recently; otherwise set the marker first, then run the awaited
section (constants writes, `getApplicableAttributes`, the upsert and the
mirror patches).  The awaited section is fallible; a failure is modeled
at its first awaited step (after the marker is set, before any
leaderboard read or store write), controlled by `upstreamOk`. -/
def updateDatabaseMember (st : ApiState) (memberUuid profileUuid : String)
    (memberAttrs : List (String × Int)) (now : Int) (upstreamOk : Bool) :
    ApiState × UpdateOutcome :=
  if markerActive st.markers (profileUuid ++ memberUuid) now then
    (st, .skipped)
  else
    let st1 : ApiState :=
      { st with markers := (profileUuid ++ memberUuid, now) :: st.markers }
    if upstreamOk then
      let r := getApplicableAttributes st1.lb memberAttrs
      ({ st1 with lb := commitMember r.2 memberUuid profileUuid r.1 }, .committed)
    else (st1, .failed)

/-! ## Helper lemmas -/

instance {α : Type} (k : α → Int) : IsTotal α (keyLe k) :=
  ⟨fun a b => Int.le_total (k a) (k b)⟩

instance {α : Type} (k : α → Int) : IsTrans α (keyLe k) :=
  ⟨fun _ _ _ => Int.le_trans⟩

theorem sorted_jsSort {α : Type} (k : α → Int) (l : List α) :
    (jsSort k l).Sorted (keyLe k) :=
  List.sorted_insertionSort (keyLe k) l

theorem mem_jsSort {α : Type} {k : α → Int} {l : List α} {a : α} :
    a ∈ jsSort k l ↔ a ∈ l :=
  List.mem_insertionSort (keyLe k)

theorem isPrefixOf_self (l : List Char) : l.isPrefixOf l = true := by
  induction l with
  | nil => rfl
  | cons a t ih => simp [List.isPrefixOf, ih]

theorem strStartsWith_self (m : String) : strStartsWith m m = true :=
  isPrefixOf_self m.data

theorem strEndsWith_self (m : String) : strEndsWith m m = true := by
  simp only [strEndsWith, List.isSuffixOf]
  exact isPrefixOf_self m.data.reverse

theorem mergeAuction_length_le (auctions : List SimpleAuction)
    (a : SimpleAuction) (h : auctions.length ≤ 100) :
    (mergeAuction auctions a).length ≤ 100 := by
  unfold mergeAuction
  split
  · exact h
  · dsimp only
    split
    · simp; omega
    · next h2 => simp at h2 ⊢; omega

theorem foldl_mergeAuction_length_le (hist : List SimpleAuction)
    (l : List SimpleAuction) (h : hist.length ≤ 100) :
    (l.foldl mergeAuction hist).length ≤ 100 := by
  induction l generalizing hist with
  | nil => exact h
  | cons a t ih => exact ih _ (mergeAuction_length_le hist a h)

theorem newAuctionUuids_mem_aux (prev : List String) :
    ∀ (aucs : List EndedAuction) (acc : List String) (x : String),
      x ∈ aucs.foldl (addNewAuctionId prev) acc ↔
        x ∈ acc ∨ (x ∈ aucs.map EndedAuction.id ∧ x ∉ prev) := by
  intro aucs
  induction aucs with
  | nil => simp
  | cons a t ih =>
    intro acc x
    simp only [List.foldl_cons, List.map_cons, List.mem_cons]
    rw [ih]
    unfold addNewAuctionId
    by_cases h1 : a.id ∈ prev
    · simp only [if_pos h1]
      constructor
      · rintro (h | h)
        · exact Or.inl h
        · exact Or.inr ⟨Or.inr h.1, h.2⟩
      · rintro (h | ⟨(rfl | h), hp⟩)
        · exact Or.inl h
        · exact absurd h1 hp
        · exact Or.inr ⟨h, hp⟩
    · simp only [if_neg h1]
      by_cases h2 : a.id ∈ acc
      · simp only [if_pos h2]
        constructor
        · rintro (h | h)
          · exact Or.inl h
          · exact Or.inr ⟨Or.inr h.1, h.2⟩
        · rintro (h | ⟨(rfl | h), hp⟩)
          · exact Or.inl h
          · exact Or.inl h2
          · exact Or.inr ⟨h, hp⟩
      · simp only [if_neg h2, List.mem_append, List.mem_singleton]
        constructor
        · rintro ((h | rfl) | h)
          · exact Or.inl h
          · exact Or.inr ⟨Or.inl rfl, h1⟩
          · exact Or.inr ⟨Or.inr h.1, h.2⟩
        · rintro (h | ⟨(rfl | h), hp⟩)
          · exact Or.inl (Or.inl h)
          · exact Or.inl (Or.inr rfl)
          · exact Or.inr ⟨h, hp⟩

/-! ## Claim theorems (part 1) -/

/-- C1 (code bug): the include-condition of `getApplicableAttributes` is
`(!requirement || leaderboardReversed) ? value < requirement : value > requirement`
by JavaScript precedence.  With an empty store every leaderboard has
fewer than 100 entries, so the requirement is `null`; the attribute
`kills_zombie = 50` is then tested as `50 < null` (i.e. `50 < 0`) and
dropped, while the documented rule ("only ones that would put them on the
top 100") and the spec'd inclusion rule include it. -/
theorem getApplicableAttributes_excludes_nonfull_leaderboard :
    (getApplicableAttributes ⟨[], fun _ => none⟩ [("kills_zombie", 50)]).1 = [] ∧
    applicableCond none false 50 = false ∧
    specApplicableCond none (isLeaderboardReversed "kills_zombie") 50 = true := by
  decide

/-- Schedule for C2: caller 0 runs first, caller 1 arrives during the
fetch, caller 0's request resolves (data `5`), caller 1's poll resumes,
caller 1's own request resolves (data `6`). -/
def electionDoubleTrace : List ElectionEvent :=
  [.run 0, .run 1, .fetchOk 0 5, .run 1, .fetchOk 1 6]

/-- C2 (code bug): two concurrent `fetchElection` callers on a cold cache
make TWO upstream fetches and can return different values: the caller
that finds a refresh in flight polls until the value arrives, but then
falls through into the fetch section instead of returning the cached
value (the poll's resolved value is discarded). -/
theorem fetchElection_double_fetch :
    (electionRun electionCold2 electionDoubleTrace).fetchCount = 2 ∧
    (electionRun electionCold2 electionDoubleTrace).pcs =
      [ElectionPC.done 5, ElectionPC.done 6] := by
  decide

/-- Schedule for C3: caller 0 starts the fetch, the fetch rejects, then a
fresh caller 1 arrives. -/
def electionFailTrace : List ElectionEvent :=
  [.run 0, .fetchErr 0, .run 1]

/-- C3 (code bug): when the upstream request rejects, the exception
propagates before `isFetchingElection = false` runs (there is no
`try`/`finally`), so the in-flight flag stays set and nothing is cached;
the failure is propagated, but a subsequent caller sees
`isFetchingElection && !cachedElectionData` and enters the poll loop
instead of retrying the refresh. -/
theorem fetchElection_failure_keeps_flag :
    (electionRun electionCold2 electionFailTrace).isFetchingElection = true ∧
    (electionRun electionCold2 electionFailTrace).cachedElectionData = none ∧
    (electionRun electionCold2 electionFailTrace).pcs =
      [ElectionPC.failed, ElectionPC.waiting] ∧
    (electionRun electionCold2 electionFailTrace).fetchCount = 1 := by
  decide

/-- C4: after merging any batch of new auctions into a history of at most
100 records the history still has at most 100 records; and merging 150
distinct sequential auctions into an empty history yields exactly the 100
most recently appended records (the first 50 appended are dropped). -/
theorem auction_history_cap :
    (∀ (hist newAuctions : List SimpleAuction), hist.length ≤ 100 →
      (newAuctions.foldl mergeAuction hist).length ≤ 100) ∧
    List.foldl mergeAuction [] auctions150 = auctions150.drop 50 :=
  ⟨fun hist l h => foldl_mergeAuction_length_le hist l h, by decide⟩

/-- Witness for C4 at a concrete input. -/
theorem auction_history_cap_witness :
    (List.foldl mergeAuction [] [⟨true, 1, "x", 1, false⟩]).length ≤ 100 :=
  auction_history_cap.1 [] [⟨true, 1, "x", 1, false⟩] (by decide)

/-- Snapshot for the C5 counterexample: auction "a" was already seen in
the previous iteration, auction "b" is new. -/
def cexSnapshotAuctions : List EndedAuction :=
  [⟨"a", "ITEM_A", 10, 1000, false⟩, ⟨"b", "ITEM_A", 20, 2000, false⟩]

/-- C5 counterexample: the loop ends an iteration with
`previousAuctionIds = newAuctionUuids`, not the snapshot's full id set:
id "a" is present in the snapshot just fetched but absent from the ids
used for the next iteration's diff. -/
theorem next_previous_ids_not_snapshot_ids :
    nextPreviousAuctionIds ["a"] cexSnapshotAuctions = ["b"] ∧
    "a" ∈ cexSnapshotAuctions.map EndedAuction.id ∧
    "a" ∉ nextPreviousAuctionIds ["a"] cexSnapshotAuctions := by
  decide

/-- C5 amended: at the end of an iteration the previous-ids set equals
`snapshot.ids − previousIds` — exactly the ids first seen in the current
snapshot — so the next diff is taken against only those newly seen ids,
not against everything in the current snapshot. -/
theorem next_previous_ids_characterization :
    ∀ (previousAuctionIds : List String) (auctions : List EndedAuction)
      (x : String),
      x ∈ nextPreviousAuctionIds previousAuctionIds auctions ↔
        (x ∈ auctions.map EndedAuction.id ∧ x ∉ previousAuctionIds) := by
  intro prev aucs x
  have h := newAuctionUuids_mem_aux prev aucs [] x
  simpa [nextPreviousAuctionIds, newAuctionUuids] using h

/-- C6: the loop computes `refetchIn = 60 * 1000 - endedAgo + 10000` and
hands it to the runtime timer, which never waits a negative duration, so
the waited delay is `max(0, 60s − (now − lastUpdated) + 10s)` and is
non-negative. -/
theorem auction_sync_delay_clamped :
    ∀ now lastUpdated : Int,
      timerWait (refetchIn now lastUpdated) = specRetryDelay now lastUpdated ∧
      0 ≤ timerWait (refetchIn now lastUpdated) :=
  fun _ _ => ⟨rfl, le_max_left 0 _⟩

/-- C7 counterexample: the matcher `"_best_time"` (first character `_`)
matches `"x_best_time"`, which does not start with it — a leading
underscore is a *suffix* matcher; and the matcher `"kills_"` (last
character `_`) matches `"kills_zombie"`, which does not end with it — a
trailing underscore is a *prefix* matcher. The claim states the two
conventions the other way round. -/
theorem matcher_direction_counterexample :
    matcherMatches "_best_time" "x_best_time" = true ∧
    strStartsWith "_best_time" "x_best_time" = false ∧
    matcherMatches "kills_" "kills_zombie" = true ∧
    strEndsWith "kills_" "kills_zombie" = false := by
  decide

/-- C7 amended: in the shared matcher algorithm, a matcher whose *last*
character is `_` (and whose first is not) matches exactly the names that
start with it; a matcher whose *first* character is `_` (and whose last
is not) matches exactly the names that end with it; a matcher with
neither matches only the identical name.  The inline matcher loop of
`categorizeStat` fires on exactly the same condition. -/
theorem matcher_direction_amended :
    (∀ m name : String,
      (firstUnderscore m = true → lastUnderscore m = false →
        (matcherMatches m name = true ↔ strEndsWith m name = true)) ∧
      (lastUnderscore m = true → firstUnderscore m = false →
        (matcherMatches m name = true ↔ strStartsWith m name = true)) ∧
      (firstUnderscore m = false → lastUnderscore m = false →
        (matcherMatches m name = true ↔ name = m))) ∧
    (∀ (cat : String) (ms : List String) (name : String),
      (categorizeStatMatch name cat ms).isSome = true ↔
        ms.any (fun m => matcherMatches m name) = true) := by
  constructor
  · intro m name
    refine ⟨fun h1 h2 => ?_, fun h1 h2 => ?_, fun h1 h2 => ?_⟩
    · simp only [matcherMatches, h1, h2, Bool.false_and, Bool.true_and,
        Bool.false_or, Bool.or_eq_true, beq_iff_eq]
      constructor
      · rintro (h | h)
        · exact h
        · rw [h]; exact strEndsWith_self m
      · exact Or.inl
    · simp only [matcherMatches, h1, h2, Bool.false_and, Bool.true_and,
        Bool.or_false, Bool.or_eq_true, beq_iff_eq]
      constructor
      · rintro (h | h)
        · exact h
        · rw [h]; exact strStartsWith_self m
      · exact Or.inl
    · simp only [matcherMatches, h1, h2, Bool.false_and, Bool.false_or,
        beq_iff_eq]
  · intro cat ms name
    induction ms with
    | nil => simp [categorizeStatMatch]
    | cons m rest ih =>
      simp only [categorizeStatMatch, List.any_cons, Bool.or_eq_true]
      by_cases h1 : (lastUnderscore m && strStartsWith m name) = true
      · simp [matcherMatches, h1]
      · by_cases h2 : (firstUnderscore m && strEndsWith m name) = true
        · simp [matcherMatches, h1, h2]
        · by_cases h3 : (name == m) = true
          · simp [matcherMatches, h1, h2, h3]
          · simp [matcherMatches, h1, h2, h3, ih]

/-- Witness for C7's amended theorem at concrete matchers. -/
theorem matcher_direction_amended_witness :
    (matcherMatches "_best_time" "x_best_time" = true ↔
      strEndsWith "_best_time" "x_best_time" = true) ∧
    (matcherMatches "kills_" "kills_zombie" = true ↔
      strStartsWith "kills_" "kills_zombie" = true) ∧
    (matcherMatches "purse" "purse" = true ↔ ("purse" : String) = "purse") :=
  ⟨(matcher_direction_amended.1 "_best_time" "x_best_time").1 (by decide) (by decide),
   (matcher_direction_amended.1 "kills_" "kills_zombie").2.1 (by decide) (by decide),
   (matcher_direction_amended.1 "purse" "purse").2.2 (by decide) (by decide)⟩

/-! ## C8: the served view is bounded and sorted -/

/-- Ranking direction of a leaderboard: descending by the statistic's
value, ascending when the leaderboard is reversed. -/
def dirRel (name : String) (a b : DbItem) : Prop :=
  if isLeaderboardReversed name then getStat a name ≤ getStat b name
  else getStat b name ≤ getStat a name

/-- A well-formed served leaderboard view: at most 100 entries, ordered
in the leaderboard's configured direction. -/
def goodView (name : String) (l : List DbItem) : Prop :=
  l.length ≤ 100 ∧ l.Pairwise (dirRel name)

/-- Every cached mirror holds a well-formed view. -/
def cacheGood (st : LbState) : Prop :=
  ∀ n l, st.cache n = some l → goodView n l

theorem pairwise_keyLe_dirRel (name : String) (l : List DbItem)
    (h : l.Pairwise (keyLe (statKey (isLeaderboardReversed name) name))) :
    l.Pairwise (dirRel name) := by
  refine h.imp ?_
  intro a b hab
  by_cases hrev : isLeaderboardReversed name = true <;>
    simp only [keyLe, statKey, dirRel, hrev, if_true, if_false,
      Bool.false_eq_true, reduceIte] at hab ⊢ <;> omega

theorem take100_goodView (name : String) (l : List DbItem)
    (h : l.Pairwise (keyLe (statKey (isLeaderboardReversed name) name))) :
    goodView name (l.take 100) := by
  constructor
  · exact (List.length_take 100 l).le.trans (min_le_left _ _)
  · exact pairwise_keyLe_dirRel name _ (h.sublist (List.take_sublist 100 l))

theorem dbQuery_goodView (store : List MemberDoc) (name : String) :
    goodView name (dbQuery store name) :=
  take100_goodView name _ (sorted_jsSort _ _)

theorem patchLeaderboard_goodView (raw : List DbItem) (u : String)
    (attrs : List (String × Int)) (name : String) :
    goodView name (patchLeaderboard raw u attrs name) :=
  take100_goodView name _ (sorted_jsSort _ _)

theorem fetch_goodView (st : LbState) (name : String) (h : cacheGood st) :
    goodView name (fetchMemberLeaderboardRaw st name).1 ∧
      cacheGood (fetchMemberLeaderboardRaw st name).2 := by
  unfold fetchMemberLeaderboardRaw
  cases hc : st.cache name with
  | some lb => exact ⟨h name lb hc, h⟩
  | none =>
    refine ⟨dbQuery_goodView st.store name, ?_⟩
    intro n l hl
    simp only [setCache] at hl
    by_cases hn : n = name
    · subst hn
      rw [if_pos rfl] at hl
      cases hl
      exact dbQuery_goodView st.store n
    · rw [if_neg hn] at hl
      exact h n l hl

/-- C8: every served leaderboard view has at most 100 entries and is
ordered in the leaderboard's configured direction (descending, ascending
when reversed): the persistent-store query of the cache-miss path, any
in-memory mirror patch performed by `updateDatabaseMember`, and the value
returned by `fetchMemberLeaderboardRaw` (which also keeps every cached
mirror well-formed). -/
theorem served_view_bounded_sorted :
    (∀ (store : List MemberDoc) (name : String),
      goodView name (dbQuery store name)) ∧
    (∀ (raw : List DbItem) (memberUuid : String)
      (attrs : List (String × Int)) (name : String),
      goodView name (patchLeaderboard raw memberUuid attrs name)) ∧
    (∀ (st : LbState) (name : String), cacheGood st →
      goodView name (fetchMemberLeaderboardRaw st name).1 ∧
        cacheGood (fetchMemberLeaderboardRaw st name).2) :=
  ⟨dbQuery_goodView, patchLeaderboard_goodView, fetch_goodView⟩

/-- Witness for C8 at a concrete state (empty store, empty cache). -/
theorem served_view_bounded_sorted_witness :
    goodView "first_join"
      (fetchMemberLeaderboardRaw ⟨[], fun _ => none⟩ "first_join").1 :=
  (served_view_bounded_sorted.2.2 ⟨[], fun _ => none⟩ "first_join"
    fun _ _ h => Option.noConfusion h).1

/-! ## C9: stability of the JS sort and idempotence of the mirror patch -/

theorem keyLe_of_not_keyLe {α : Type} (k : α → Int) {a b : α}
    (h : ¬ keyLe k a b) : keyLe k b a :=
  le_of_not_le h

theorem keyLe_trans' {α : Type} (k : α → Int) {a b c : α}
    (h1 : keyLe k a b) (h2 : keyLe k b c) : keyLe k a c :=
  Int.le_trans h1 h2

/-- Where the stable sort places an element appended at the end of the
input: after every element whose key is `≤` its key, before the rest. -/
def insertLast {α : Type} (k : α → Int) (x : α) (S : List α) : List α :=
  S.takeWhile (fun s => decide (keyLe k s x))
    ++ x :: S.dropWhile (fun s => decide (keyLe k s x))

theorem insertLast_cons {α : Type} (k : α → Int) (x s : α) (t : List α) :
    insertLast k x (s :: t) =
      if keyLe k s x then s :: insertLast k x t else x :: s :: t := by
  by_cases h : keyLe k s x
  · simp [insertLast, List.takeWhile_cons, List.dropWhile_cons, h]
  · simp [insertLast, List.takeWhile_cons, List.dropWhile_cons, h]

theorem orderedInsert_insertLast_comm {α : Type} (k : α → Int) (a x : α) :
    ∀ S : List α,
      (insertLast k x S).orderedInsert (keyLe k) a
        = insertLast k x (S.orderedInsert (keyLe k) a) := by
  intro S
  induction S with
  | nil =>
    by_cases h : keyLe k a x
    · simp [insertLast, List.orderedInsert, h]
    · simp [insertLast, List.orderedInsert, h]
  | cons s t ih =>
    rw [insertLast_cons]
    by_cases hsx : keyLe k s x
    · rw [if_pos hsx]
      by_cases has : keyLe k a s
      · have hax : keyLe k a x := keyLe_trans' k has hsx
        rw [List.orderedInsert_of_le _ _ has,
          show (s :: t).orderedInsert (keyLe k) a = a :: s :: t from
            List.orderedInsert_of_le _ _ has,
          insertLast_cons, if_pos hax, insertLast_cons, if_pos hsx]
      · have e1 : (s :: insertLast k x t).orderedInsert (keyLe k) a
            = s :: (insertLast k x t).orderedInsert (keyLe k) a := by
          simp [List.orderedInsert, has]
        have e2 : (s :: t).orderedInsert (keyLe k) a
            = s :: t.orderedInsert (keyLe k) a := by
          simp [List.orderedInsert, has]
        rw [e1, ih, e2, insertLast_cons, if_pos hsx]
    · rw [if_neg hsx]
      by_cases hax : keyLe k a x
      · have hxs : keyLe k x s := keyLe_of_not_keyLe k hsx
        have has : keyLe k a s := keyLe_trans' k hax hxs
        rw [List.orderedInsert_of_le _ _ hax,
          show (s :: t).orderedInsert (keyLe k) a = a :: s :: t from
            List.orderedInsert_of_le _ _ has,
          insertLast_cons, if_pos hax, insertLast_cons, if_neg hsx]
      · have e1 : (x :: s :: t).orderedInsert (keyLe k) a
            = x :: (s :: t).orderedInsert (keyLe k) a := by
          simp [List.orderedInsert, hax]
        rw [e1]
        by_cases has : keyLe k a s
        · rw [show (s :: t).orderedInsert (keyLe k) a = a :: s :: t from
              List.orderedInsert_of_le _ _ has,
            insertLast_cons, if_neg hax]
        · have e2 : (s :: t).orderedInsert (keyLe k) a
              = s :: t.orderedInsert (keyLe k) a := by
            simp [List.orderedInsert, has]
          rw [e2, insertLast_cons, if_neg hsx]

/-- Appending one element to the input of the stable sort inserts it
after its tie group in the sorted output. -/
theorem jsSort_append_singleton {α : Type} (k : α → Int) (x : α) :
    ∀ A : List α, jsSort k (A ++ [x]) = insertLast k x (jsSort k A) := by
  intro A
  induction A with
  | nil => simp [jsSort, List.insertionSort, insertLast]
  | cons a A ih =>
    show (jsSort k (A ++ [x])).orderedInsert (keyLe k) a
        = insertLast k x ((jsSort k A).orderedInsert (keyLe k) a)
    rw [ih, orderedInsert_insertLast_comm]

theorem takeWhile_append_all {α : Type} (p : α → Bool) (B : List α) :
    ∀ A : List α, (∀ a ∈ A, p a = true) →
      (A ++ B).takeWhile p = A ++ B.takeWhile p := by
  intro A
  induction A with
  | nil => simp
  | cons a A ih =>
    intro h
    have ha := h a (List.mem_cons_self a A)
    simp only [List.cons_append, List.takeWhile_cons, ha, if_true]
    rw [ih fun b hb => h b (List.mem_cons_of_mem a hb)]

theorem dropWhile_append_all {α : Type} (p : α → Bool) (B : List α) :
    ∀ A : List α, (∀ a ∈ A, p a = true) →
      (A ++ B).dropWhile p = B.dropWhile p := by
  intro A
  induction A with
  | nil => simp
  | cons a A ih =>
    intro h
    have ha := h a (List.mem_cons_self a A)
    simp only [List.cons_append, List.dropWhile_cons, ha, if_true]
    exact ih fun b hb => h b (List.mem_cons_of_mem a hb)

theorem dropWhile_eq_cons_imp {α : Type} (p : α → Bool) :
    ∀ (l : List α) (a : α) (t : List α), l.dropWhile p = a :: t →
      p a = false := by
  intro l
  induction l with
  | nil => intro a t h; exact absurd h (by simp)
  | cons b l ih =>
    intro a t h
    rw [List.dropWhile_cons] at h
    cases hb : p b with
    | true => rw [hb, if_pos rfl] at h; exact ih a t h
    | false =>
      rw [hb] at h
      simp only [Bool.false_eq_true, if_false] at h
      injection h with h1 _
      rw [← h1]; exact hb

theorem take_eq_cons_imp {α : Type} :
    ∀ (n : Nat) (l : List α) (a : α) (t : List α), l.take n = a :: t →
      ∃ t2, l = a :: t2 := by
  intro n l a t h
  cases n with
  | zero => simp at h
  | succ n =>
    cases l with
    | nil => simp at h
    | cons b l2 =>
      rw [List.take_succ_cons] at h
      injection h with h1 _
      exact ⟨l2, by rw [h1]⟩

/-- Core of the C9 idempotence argument: re-running
filter–append–stable-sort–truncate on its own output is the identity. -/
theorem patch_idem_aux {α : Type} (k : α → Int) (pred : α → Bool) (x : α)
    (hx : pred x = false) (M : List α) :
    (jsSort k
        (((jsSort k (M.filter pred ++ [x])).take 100).filter pred ++ [x])).take 100
      = (jsSort k (M.filter pred ++ [x])).take 100 := by
  set q : α → Bool := fun s => decide (keyLe k s x) with hq
  set S := jsSort k (M.filter pred) with hS
  have hSsorted : S.Sorted (keyLe k) := sorted_jsSort k _
  have hSpred : ∀ s ∈ S, pred s = true := by
    intro s hs
    have hm : s ∈ M.filter pred := mem_jsSort.mp hs
    exact (List.mem_filter.mp hm).2
  have hL : jsSort k (M.filter pred ++ [x]) = S.takeWhile q ++ x :: S.dropWhile q := by
    rw [jsSort_append_singleton]; rfl
  set t := S.takeWhile q with ht
  set d := S.dropWhile q with hd
  have htd : t ++ d = S := List.takeWhile_append_dropWhile q S
  have htpred : ∀ a ∈ t, pred a = true := fun a ha =>
    hSpred a ((List.takeWhile_sublist q).subset ha)
  have hdpred : ∀ a ∈ d, pred a = true := fun a ha =>
    hSpred a ((List.dropWhile_sublist q).subset ha)
  have htq : ∀ a ∈ t, q a = true := fun a ha => List.mem_takeWhile_imp ha
  have hsorted_td : (t ++ d).Pairwise (keyLe k) := by rw [htd]; exact hSsorted
  rw [hL]
  by_cases hlen : t.length < 100
  · have h1 : (t ++ x :: d).take 100 = t ++ x :: d.take (99 - t.length) := by
      rw [List.take_append_eq_append_take, List.take_of_length_le (le_of_lt hlen)]
      congr 1
      have h100 : 100 - t.length = (99 - t.length) + 1 := by omega
      rw [h100, List.take_succ_cons]
    set d2 := d.take (99 - t.length) with hd2
    have hd2sub : List.Sublist d2 d := List.take_sublist _ _
    have h2 : (t ++ x :: d2).filter pred = t ++ d2 := by
      rw [List.filter_append, List.filter_cons, hx]
      simp only [Bool.false_eq_true, if_false]
      rw [List.filter_eq_self.mpr htpred,
        List.filter_eq_self.mpr fun a ha => hdpred a (hd2sub.subset ha)]
    rw [h1, h2]
    have hsorted_td2 : (t ++ d2).Pairwise (keyLe k) :=
      hsorted_td.sublist (hd2sub.append_left t)
    rw [jsSort_append_singleton,
      show jsSort k (t ++ d2) = t ++ d2 from
        List.Sorted.insertionSort_eq hsorted_td2]
    show ((t ++ d2).takeWhile q ++ x :: (t ++ d2).dropWhile q).take 100
        = t ++ x :: d2
    rw [takeWhile_append_all q d2 t htq, dropWhile_append_all q d2 t htq]
    have h5 : d2.takeWhile q = [] ∧ d2.dropWhile q = d2 := by
      cases hd2c : d2 with
      | nil => simp
      | cons a t2 =>
        have hdc : d.take (99 - t.length) = a :: t2 := by rw [← hd2, hd2c]
        obtain ⟨d3, hd3⟩ := take_eq_cons_imp _ d a t2 hdc
        have hqa : q a = false := by
          refine dropWhile_eq_cons_imp q S a d3 ?_
          rw [← hd, hd3]
        constructor
        · rw [List.takeWhile_cons, hqa]
          simp
        · rw [List.dropWhile_cons, hqa]
          simp
    rw [h5.1, h5.2, List.append_nil]
    apply List.take_of_length_le
    have hd2len : d2.length ≤ 99 - t.length :=
      (List.length_take _ _).le.trans (min_le_left _ _)
    simp only [List.length_append, List.length_cons]
    omega
  · have hge : 100 ≤ t.length := le_of_not_lt hlen
    have h1 : (t ++ x :: d).take 100 = t.take 100 := by
      rw [List.take_append_eq_append_take]
      have h0 : 100 - t.length = 0 := by omega
      rw [h0, List.take_zero, List.append_nil]
    rw [h1]
    set t2 := t.take 100 with ht2
    have ht2sub : List.Sublist t2 t := List.take_sublist _ _
    have ht2pred : ∀ a ∈ t2, pred a = true := fun a ha => htpred a (ht2sub.subset ha)
    have ht2q : ∀ a ∈ t2, q a = true := fun a ha => htq a (ht2sub.subset ha)
    rw [List.filter_eq_self.mpr ht2pred]
    have ht2sorted : t2.Pairwise (keyLe k) :=
      hSsorted.sublist (ht2sub.trans (List.takeWhile_sublist q))
    rw [jsSort_append_singleton,
      show jsSort k t2 = t2 from List.Sorted.insertionSort_eq ht2sorted]
    show (t2.takeWhile q ++ x :: t2.dropWhile q).take 100 = t2
    rw [List.takeWhile_eq_self_iff.mpr ht2q,
      List.dropWhile_eq_nil_iff.mpr ht2q]
    have hlen2 : t2.length = 100 := by
      rw [ht2, List.length_take]; omega
    rw [List.take_append_eq_append_take, List.take_of_length_le hlen2.le, hlen2]
    simp

/-- The mirror patch is idempotent: patching a leaderboard a second time
with the same member and attributes returns the same list. -/
theorem patchLeaderboard_idem (raw : List DbItem) (u : String)
    (attrs : List (String × Int)) (name : String) :
    patchLeaderboard (patchLeaderboard raw u attrs name) u attrs name
      = patchLeaderboard raw u attrs name := by
  have hx : ((⟨u, attrs⟩ : DbItem).uuid != u) = false := by simp
  exact patch_idem_aux (statKey (isLeaderboardReversed name) name)
    (fun v => v.uuid != u) ⟨u, attrs⟩ hx raw

/-! ### State-level lemmas for the commit step -/

theorem setCache_self (c : String → Option (List DbItem)) (n : String)
    (v : List DbItem) : setCache c n v n = some v := by
  simp [setCache]

theorem setCache_of_eq (c : String → Option (List DbItem)) (n : String)
    (v : List DbItem) (h : c n = some v) : setCache c n v = c := by
  funext m
  by_cases hm : m = n
  · subst hm; simp [setCache, h]
  · simp [setCache, hm]

theorem commitStep_store (u : String) (attrs : List (String × Int))
    (s : LbState) (p : String × Int) :
    (commitStep u attrs s p).store = s.store := by
  unfold commitStep fetchMemberLeaderboardRaw
  cases hc : s.cache p.1 <;> simp [hc]

theorem commitStep_cache_ne (u : String) (attrs : List (String × Int))
    (s : LbState) (p : String × Int) (n : String) (h : n ≠ p.1) :
    (commitStep u attrs s p).cache n = s.cache n := by
  unfold commitStep fetchMemberLeaderboardRaw
  cases hc : s.cache p.1 <;> simp [hc, setCache, h]

theorem commitStep_cache_self (u : String) (attrs : List (String × Int))
    (s : LbState) (p : String × Int) :
    (commitStep u attrs s p).cache p.1
      = some (patchLeaderboard (fetchMemberLeaderboardRaw s p.1).1 u attrs p.1) := by
  unfold commitStep
  exact setCache_self _ _ _

theorem foldl_commitStep_store (u : String) (attrs : List (String × Int)) :
    ∀ (l : List (String × Int)) (s : LbState),
      (l.foldl (commitStep u attrs) s).store = s.store := by
  intro l
  induction l with
  | nil => intro s; rfl
  | cons p rest ih =>
    intro s
    rw [List.foldl_cons, ih _, commitStep_store]

theorem foldl_commitStep_cache_not_mem (u : String)
    (attrs : List (String × Int)) :
    ∀ (l : List (String × Int)) (s : LbState) (n : String),
      n ∉ l.map Prod.fst →
      (l.foldl (commitStep u attrs) s).cache n = s.cache n := by
  intro l
  induction l with
  | nil => intro s n _; rfl
  | cons p rest ih =>
    intro s n hn
    simp only [List.map_cons, List.mem_cons, not_or] at hn
    rw [List.foldl_cons, ih _ n hn.2, commitStep_cache_ne u attrs s p n hn.1]

theorem foldl_commitStep_cache_form (u : String)
    (attrs : List (String × Int)) :
    ∀ (l : List (String × Int)) (s : LbState) (n : String),
      n ∈ l.map Prod.fst →
      ∃ raw, (l.foldl (commitStep u attrs) s).cache n
        = some (patchLeaderboard raw u attrs n) := by
  intro l
  induction l with
  | nil => intro s n h; simp at h
  | cons p rest ih =>
    intro s n hn
    rw [List.foldl_cons]
    by_cases hmem : n ∈ rest.map Prod.fst
    · exact ih _ n hmem
    · have hnp : n = p.1 := by
        simp only [List.map_cons, List.mem_cons] at hn
        tauto
      subst hnp
      refine ⟨(fetchMemberLeaderboardRaw s p.1).1, ?_⟩
      rw [foldl_commitStep_cache_not_mem u attrs rest _ _ hmem,
        commitStep_cache_self]

theorem commitStep_fixpoint (u : String) (attrs : List (String × Int))
    (s : LbState) (p : String × Int) (L : List DbItem)
    (hL : s.cache p.1 = some L)
    (hpatch : patchLeaderboard L u attrs p.1 = L) :
    commitStep u attrs s p = s := by
  unfold commitStep fetchMemberLeaderboardRaw
  rw [hL]
  dsimp only
  rw [hpatch, setCache_of_eq s.cache p.1 L hL]

theorem foldl_commitStep_fixpoint (u : String) (attrs : List (String × Int)) :
    ∀ (l : List (String × Int)) (s : LbState),
      (∀ p ∈ l, commitStep u attrs s p = s) →
      l.foldl (commitStep u attrs) s = s := by
  intro l
  induction l with
  | nil => intro s _; rfl
  | cons p rest ih =>
    intro s h
    rw [List.foldl_cons, h p (List.mem_cons_self p rest)]
    exact ih s fun q hq => h q (List.mem_cons_of_mem p hq)

theorem upsertDoc_idem (store : List MemberDoc) (u p : String)
    (attrs : List (String × Int)) :
    upsertDoc (upsertDoc store u p attrs) u p attrs
      = upsertDoc store u p attrs := by
  unfold upsertDoc
  by_cases hs : (store.any fun d => d.uuid == u && d.profile == p) = true
  · rw [if_pos hs]
    have hany2 : ((store.map fun d =>
        if d.uuid == u && d.profile == p then { d with stats := attrs } else d).any
          fun d => d.uuid == u && d.profile == p) = true := by
      rw [List.any_eq_true] at hs ⊢
      obtain ⟨d, hd, hpred⟩ := hs
      refine ⟨if d.uuid == u && d.profile == p then { d with stats := attrs } else d,
        List.mem_map_of_mem _ hd, ?_⟩
      rw [if_pos hpred]
      simpa using hpred
    rw [if_pos hany2, List.map_map]
    refine List.map_congr_left ?_
    intro d _
    by_cases hd : (d.uuid == u && d.profile == p) = true
    · simp [Function.comp, hd]
    · simp [Function.comp, hd]
  · rw [if_neg hs]
    have hany2 : ((store ++ [(⟨u, p, attrs⟩ : MemberDoc)]).any
        fun d => d.uuid == u && d.profile == p) = true := by
      rw [List.any_eq_true]
      exact ⟨⟨u, p, attrs⟩, by simp, by simp⟩
    rw [if_pos hany2, List.map_append]
    have hall : ∀ d ∈ store, (d.uuid == u && d.profile == p) = false := by
      intro d hd
      by_contra hne
      exact hs (List.any_eq_true.mpr ⟨d, hd, by simpa using hne⟩)
    have h1 : (store.map fun d =>
        if d.uuid == u && d.profile == p then { d with stats := attrs } else d)
          = store := by
      conv_rhs => rw [← List.map_id store]
      refine List.map_congr_left ?_
      intro d hd
      rw [hall d hd]
      simp
    rw [h1]
    simp

theorem patchLeaderboard_filter_uuid (raw : List DbItem) (u : String)
    (attrs : List (String × Int)) (name : String) :
    ((patchLeaderboard raw u attrs name).filter fun v => v.uuid == u).length ≤ 1 := by
  have h1 : List.Sublist
      ((patchLeaderboard raw u attrs name).filter fun v => v.uuid == u)
      ((jsSort (statKey (isLeaderboardReversed name) name)
          ((raw.filter fun v => v.uuid != u) ++ [⟨u, attrs⟩])).filter
        fun v => v.uuid == u) :=
    (List.take_sublist _ _).filter _
  have hperm : List.Perm
      (jsSort (statKey (isLeaderboardReversed name) name)
        ((raw.filter fun v => v.uuid != u) ++ [⟨u, attrs⟩]))
      ((raw.filter fun v => v.uuid != u) ++ [⟨u, attrs⟩]) :=
    List.perm_insertionSort _ _
  have h3 : (((raw.filter fun v => v.uuid != u) ++ [(⟨u, attrs⟩ : DbItem)]).filter
      fun v => v.uuid == u) = [⟨u, attrs⟩] := by
    rw [List.filter_append]
    have hnil : ((raw.filter fun v => v.uuid != u).filter
        fun v => v.uuid == u) = [] := by
      rw [List.filter_eq_nil_iff]
      intro a ha
      have := (List.mem_filter.mp ha).2
      simp only [bne_iff_ne, ne_eq] at this
      simp [this]
    rw [hnil]
    simp
  have h2 := ((hperm.filter fun v => v.uuid == u).length_eq).trans (by rw [h3])
  calc ((patchLeaderboard raw u attrs name).filter fun v => v.uuid == u).length
      ≤ _ := h1.length_le
    _ ≤ 1 := by rw [h2]; simp

/-- Unfolding of `commitMember`. -/
theorem commitMember_eq (st : LbState) (u p : String)
    (attrs : List (String × Int)) :
    commitMember st u p attrs
      = attrs.foldl (commitStep u attrs)
          { st with store := upsertDoc st.store u p attrs } := rfl

/-- C9: performing the commit step of `updateDatabaseMember` (the
persistent upsert plus the in-memory mirror patches) twice for the same
member with identical applicable attributes leaves the whole leaderboard
state — persisted documents and mirror — unchanged; and after a commit no
patched mirror holds two entries for the committed member's uuid. -/
theorem commit_idempotent :
    ∀ (st : LbState) (memberUuid profileUuid : String)
      (attrs : List (String × Int)),
      commitMember (commitMember st memberUuid profileUuid attrs)
          memberUuid profileUuid attrs
        = commitMember st memberUuid profileUuid attrs ∧
      (∀ n, n ∈ attrs.map Prod.fst →
        ∀ l, (commitMember st memberUuid profileUuid attrs).cache n = some l →
          (l.filter fun v => v.uuid == memberUuid).length ≤ 1) := by
  intro st u p attrs
  have hstore : (commitMember st u p attrs).store = upsertDoc st.store u p attrs := by
    rw [commitMember_eq]
    exact foldl_commitStep_store u attrs attrs _
  constructor
  · rw [commitMember_eq (commitMember st u p attrs) u p attrs]
    have hfix : { commitMember st u p attrs with
        store := upsertDoc (commitMember st u p attrs).store u p attrs }
          = commitMember st u p attrs := by
      rw [hstore, upsertDoc_idem, ← hstore]
    rw [hfix]
    refine foldl_commitStep_fixpoint u attrs attrs _ ?_
    intro q hq
    obtain ⟨raw, hform⟩ := foldl_commitStep_cache_form u attrs attrs
      { st with store := upsertDoc st.store u p attrs } q.1
      (List.mem_map_of_mem Prod.fst hq)
    exact commitStep_fixpoint u attrs _ q (patchLeaderboard raw u attrs q.1)
      hform (patchLeaderboard_idem raw u attrs q.1)
  · intro n hn l hl
    obtain ⟨raw, hform⟩ := foldl_commitStep_cache_form u attrs attrs
      { st with store := upsertDoc st.store u p attrs } n hn
    rw [commitMember_eq] at hl
    rw [hform] at hl
    cases hl
    exact patchLeaderboard_filter_uuid raw u attrs n

/-- Witness for C9 at a concrete state (empty store and cache, one
attribute). -/
theorem commit_idempotent_witness :
    (([⟨"u1", [("purse", 5)]⟩] : List DbItem).filter
      fun v => v.uuid == "u1").length ≤ 1 :=
  (commit_idempotent ⟨[], fun _ => none⟩ "u1" "p1" [("purse", 5)]).2
    "purse" (by decide) [⟨"u1", [("purse", 5)]⟩] rfl

/-! ## C10: the debounce marker is not rolled back on failure -/

/-- C10: `updateDatabaseMember` sets the 3-minute debounce marker before
computing applicable attributes or performing any persistent-store write;
a failure of the awaited section does not roll the marker back, so the
failed update consumes the debounce window: every further attempt for the
same (profile, member) pair within 3 minutes is skipped and leaves the
state unchanged. -/
theorem update_marker_not_rolled_back :
    ∀ (st : ApiState) (memberUuid profileUuid : String)
      (memberAttrs attrs2 : List (String × Int)) (t0 t1 : Int) (ok2 : Bool),
      markerActive st.markers (profileUuid ++ memberUuid) t0 = false →
      t1 < t0 + 180 * 1000 →
      (updateDatabaseMember st memberUuid profileUuid memberAttrs t0 false).2
        = UpdateOutcome.failed ∧
      markerActive
        (updateDatabaseMember st memberUuid profileUuid memberAttrs t0 false).1.markers
        (profileUuid ++ memberUuid) t1 = true ∧
      updateDatabaseMember
        (updateDatabaseMember st memberUuid profileUuid memberAttrs t0 false).1
        memberUuid profileUuid attrs2 t1 ok2
        = ((updateDatabaseMember st memberUuid profileUuid memberAttrs t0 false).1,
            UpdateOutcome.skipped) := by
  intro st u p ma a2 t0 t1 ok2 h0 h1
  have hfail : updateDatabaseMember st u p ma t0 false
      = ({ st with markers := (p ++ u, t0) :: st.markers }, .failed) := by
    unfold updateDatabaseMember
    rw [h0]
    simp
  have hmarker : markerActive ((p ++ u, t0) :: st.markers) (p ++ u) t1 = true := by
    unfold markerActive
    simp only [List.lookup, beq_self_eq_true, if_true, decide_eq_true_eq]
    omega
  rw [hfail]
  refine ⟨rfl, hmarker, ?_⟩
  unfold updateDatabaseMember
  rw [hmarker]
  simp

/-- Witness for C10 at a concrete state. -/
theorem update_marker_not_rolled_back_witness :
    (updateDatabaseMember ⟨[], ⟨[], fun _ => none⟩⟩ "mu" "pu" [] 0 false).2
      = UpdateOutcome.failed :=
  (update_marker_not_rolled_back ⟨[], ⟨[], fun _ => none⟩⟩ "mu" "pu" [] [] 0 1000
    true (by decide) (by decide)).1

end Skyblock
